import Mathlib

/-!
Shallow embedding of the fastdedup two-pass reflink deduplicator.

The embedding follows the Go sources:
* the bounded size histogram (SizeMap: Add, Len, TopN, evict) and SizeEntry;
* the pass-2 dedup engine (processFile, Dedup) over an abstract platform
  environment;
* the atomic replace procedure dedupFile over a model filesystem;
* the randomized directory walker walkRandom.

Go's int64 arithmetic wraps (two's complement); where an operation can
overflow we apply an explicit wraparound at 2^64.  Go map iteration order is
unspecified; the maps are modelled as association lists and the unspecified
order becomes the list order, which the theorems do not rely on beyond
determinism.  sort.Slice is modelled by insertion sort over the same
comparator (the source's sort is also not stable, so only sortedness and
permutation are meaningful).
-/

/-- Two's-complement wraparound at 64 bits: the value a Go int64 holds after
an arithmetic operation whose mathematical result is x. -/
def int64wrap (x : Int) : Int := (x + 2 ^ 63) % 2 ^ 64 - 2 ^ 63

theorem int64wrap_eq_self {x : Int} (h1 : -(2 ^ 63) ≤ x) (h2 : x < 2 ^ 63) :
    int64wrap x = x := by
  unfold int64wrap
  omega

theorem int64wrap_add_left (a b : Int) :
    int64wrap (int64wrap a + b) = int64wrap (a + b) := by
  unfold int64wrap
  omega

/-- SizeEntry holds a file size and how many times it was encountered
(part_001, SizeEntry). -/
structure SizeEntry where
  Size : Int
  Count : Int
deriving DecidableEq

/-- Impact returns the total byte impact: size * count
(part_001, SizeEntry.Impact; the Go product is a plain int64 multiplication,
hence the wraparound). -/
def SizeEntry.Impact (e : SizeEntry) : Int := int64wrap (e.Size * e.Count)

/-- Modelled from the spec's words, for comparison with the code's
SizeEntry.Impact: "impact = size × count (saturating semantics at unsigned
64-bit)", "treat saturation as maximum impact".  This is NOT the code's
definition; it is the spec-side definition used to settle the refinement
claim about saturating arithmetic. -/
def SizeEntry.ImpactSatSpec (e : SizeEntry) : Int :=
  min (e.Size * e.Count) (2 ^ 64 - 1)

/-- SizeMap is a bounded map from file size to occurrence count
(part_001, SizeMap).  The Go map is modelled as an association list. -/
structure SizeMap where
  m : List (Int × Int)
  maxSize : Int
deriving DecidableEq

/-- NewSizeMap creates a SizeMap that holds at most maxSize unique entries. -/
def NewSizeMap (maxSize : Int) : SizeMap := { m := [], maxSize := maxSize }

/-- The update sm.m[size]++ of Go: increment the count stored for size,
inserting it with count 1 when absent (0+1 never wraps).  The int64
increment of a present count wraps at 2^63. -/
def bump : List (Int × Int) → Int → List (Int × Int)
  | [], size => [(size, 1)]
  | p :: rest, size =>
    if p.1 = size then (p.1, int64wrap (p.2 + 1)) :: rest else p :: bump rest size

/-- The local evictCount of SizeMap.evict: maxSize / 10, with a floor of 1. -/
def evictQuota (sm : SizeMap) : Int :=
  if sm.maxSize / 10 < 1 then 1 else sm.maxSize / 10

/-- Comparator of SizeMap.evict's sort.Slice call: ascending by the impact
snapshot stored in the second component. -/
def impactLe (a b : Int × Int) : Prop := a.2 ≤ b.2

instance : DecidableRel impactLe := fun a b => inferInstanceAs (Decidable (a.2 ≤ b.2))

instance : IsTotal (Int × Int) impactLe := ⟨fun a b => le_total a.2 b.2⟩

instance : IsTrans (Int × Int) impactLe := ⟨fun _ _ _ h1 h2 => le_trans h1 h2⟩

/-- delete(sm.m, v) of Go, on the association-list model. -/
def eraseKey : List (Int × Int) → Int → List (Int × Int)
  | [], _ => []
  | p :: rest, v => if p.1 = v then eraseKey rest v else p :: eraseKey rest v

/-- The snapshot `all` built by SizeMap.evict: every entry as
(size, size*count), the product being a plain int64 multiplication. -/
def snapshotOf (m : List (Int × Int)) : List (Int × Int) :=
  m.map fun p => (p.1, int64wrap (p.1 * p.2))

/-- The snapshot after evict's sort.Slice call: ascending by impact. -/
def sortedSnapshot (m : List (Int × Int)) : List (Int × Int) :=
  List.insertionSort impactLe (snapshotOf m)

/-- The keys deleted by evict's loop: the sizes of the first
min(evictQuota, len) entries of the sorted snapshot. -/
def victimsOf (sm : SizeMap) : List Int :=
  ((sortedSnapshot sm.m).take
      (min (evictQuota sm) ((sortedSnapshot sm.m).length : Int)).toNat).map Prod.fst

/-- evict removes the bottom 10% of entries by impact (part_001,
SizeMap.evict): snapshot every entry as (size, size*count), sort ascending by
that impact, and delete the keys of the first min(evictQuota, length)
snapshot entries. -/
def SizeMap.evict (sm : SizeMap) : SizeMap :=
  { sm with m := (victimsOf sm).foldl eraseKey sm.m }

/-- Add records one occurrence of a file with the given size (part_001,
SizeMap.Add): increment, then evict when the cardinality exceeds maxSize. -/
def SizeMap.Add (sm : SizeMap) (size : Int) : SizeMap :=
  if sm.maxSize < ((bump sm.m size).length : Int) then
    SizeMap.evict { sm with m := bump sm.m size }
  else { sm with m := bump sm.m size }

/-- Len returns the number of distinct sizes tracked. -/
def SizeMap.Len (sm : SizeMap) : Nat := sm.m.length

/-- Comparator of SizeMap.TopN's sort.Slice call: descending by Impact. -/
def impactGe (a b : SizeEntry) : Prop := b.Impact ≤ a.Impact

instance : DecidableRel impactGe := fun a b => inferInstanceAs (Decidable (b.Impact ≤ a.Impact))

instance : IsTotal SizeEntry impactGe := ⟨fun a b => le_total b.Impact a.Impact⟩

instance : IsTrans SizeEntry impactGe := ⟨fun _ _ _ h1 h2 => le_trans h2 h1⟩

/-- The entries collected by TopN before sorting: every (size, count) with
count >= 2. -/
def SizeMap.qualifying (sm : SizeMap) : List SizeEntry :=
  (sm.m.filter fun p => decide (2 ≤ p.2)).map fun p => { Size := p.1, Count := p.2 }

/-- TopN returns the top n entries with count >= 2, ranked by impact
descending (part_001, SizeMap.TopN).  The Go slice expression
entries[:min(n, len(entries))] panics when the bound is negative; the panic
is modelled by none. -/
def SizeMap.TopN (sm : SizeMap) (n : Int) : Option (List SizeEntry) :=
  if 0 ≤ min n ((List.insertionSort impactGe sm.qualifying).length : Int) then
    some ((List.insertionSort impactGe sm.qualifying).take
      (min n ((List.insertionSort impactGe sm.qualifying).length : Int)).toNat)
  else none

example : SizeEntry.Impact { Size := 3, Count := 4 } = 12 := by decide
example : SizeEntry.Impact { Size := 2 ^ 62, Count := 4 } = 0 := by decide
example :
    SizeMap.TopN { m := [(2 ^ 62, 4), (1, 2)], maxSize := 10 } 2 =
      some [{ Size := 1, Count := 2 }, { Size := 2 ^ 62, Count := 4 }] := by decide
example : (NewSizeMap 5).TopN (-1) = none := by decide
example :
    ((SizeMap.Add { m := [(3, 1), (5, 2), (7, 1)], maxSize := 3 } 9).m) =
      [(5, 2), (7, 1), (9, 1)] := by decide


/-! ### Association-list lemmas for the SizeMap model -/

/-- The keys of the association list modelling the Go map. -/
def keysOf (m : List (Int × Int)) : List Int := m.map Prod.fst

/-- The representation invariant of the Go map: distinct keys. -/
def KeysNodup (m : List (Int × Int)) : Prop := (keysOf m).Nodup

theorem mem_keysOf {m : List (Int × Int)} {k : Int} :
    k ∈ keysOf m ↔ ∃ c, (k, c) ∈ m := by
  unfold keysOf
  constructor
  · intro h
    obtain ⟨p, hp, rfl⟩ := List.mem_map.1 h
    exact ⟨p.2, hp⟩
  · rintro ⟨c, hc⟩
    exact List.mem_map.2 ⟨(k, c), hc, rfl⟩

theorem keysNodup_value_eq {m : List (Int × Int)} (hnd : KeysNodup m)
    {k a b : Int} (ha : (k, a) ∈ m) (hb : (k, b) ∈ m) : a = b := by
  induction m with
  | nil => cases ha
  | cons p rest ih =>
    rcases List.mem_cons.1 ha with ha1 | ha1 <;> rcases List.mem_cons.1 hb with hb1 | hb1
    · exact (Prod.ext_iff.1 (ha1.trans hb1.symm)).2
    · exfalso
      have : p.1 ∈ keysOf rest := mem_keysOf.2 ⟨b, by simpa [← ha1] using hb1⟩
      exact (List.nodup_cons.1 hnd).1 this
    · exfalso
      have : p.1 ∈ keysOf rest := mem_keysOf.2 ⟨a, by simpa [← hb1] using ha1⟩
      exact (List.nodup_cons.1 hnd).1 this
    · exact ih (List.nodup_cons.1 hnd).2 ha1 hb1

theorem mem_eraseKey {m : List (Int × Int)} {v : Int} {p : Int × Int} :
    p ∈ eraseKey m v ↔ p ∈ m ∧ p.1 ≠ v := by
  induction m with
  | nil => simp [eraseKey]
  | cons q rest ih =>
    by_cases h : q.1 = v
    · simp only [eraseKey, if_pos h, ih, List.mem_cons]
      constructor
      · rintro ⟨hm, hne⟩
        exact ⟨Or.inr hm, hne⟩
      · rintro ⟨hq | hm, hne⟩
        · exact absurd (hq ▸ h) hne
        · exact ⟨hm, hne⟩
    · simp only [eraseKey, if_neg h, List.mem_cons, ih]
      constructor
      · rintro (rfl | ⟨hm, hne⟩)
        · exact ⟨Or.inl rfl, h⟩
        · exact ⟨Or.inr hm, hne⟩
      · rintro ⟨rfl | hm, hne⟩
        · exact Or.inl rfl
        · exact Or.inr ⟨hm, hne⟩

theorem eraseKey_sublist (m : List (Int × Int)) (v : Int) :
    List.Sublist (eraseKey m v) m := by
  induction m with
  | nil => simp [eraseKey]
  | cons q rest ih =>
    by_cases h : q.1 = v
    · simpa [eraseKey, if_pos h] using ih.cons q
    · simpa [eraseKey, if_neg h] using ih.cons₂ q

theorem eraseKey_of_not_mem {m : List (Int × Int)} {v : Int}
    (h : v ∉ keysOf m) : eraseKey m v = m := by
  induction m with
  | nil => rfl
  | cons q rest ih =>
    have h1 : q.1 ≠ v := by
      intro he
      exact h (by simp [keysOf, he])
    have h2 : v ∉ keysOf rest := by
      intro hm
      exact h (by simp [keysOf] at hm ⊢; tauto)
    simp [eraseKey, h1, ih h2]

theorem length_eraseKey_add_one {m : List (Int × Int)} {v : Int}
    (hnd : KeysNodup m) (hv : v ∈ keysOf m) :
    (eraseKey m v).length + 1 = m.length := by
  induction m with
  | nil => cases hv
  | cons q rest ih =>
    by_cases h : q.1 = v
    · have hout : v ∉ keysOf rest := by
        rw [← h]
        exact (List.nodup_cons.1 hnd).1
      simp [eraseKey, if_pos h, eraseKey_of_not_mem hout]
    · have hv' : v ∈ keysOf rest := by
        rcases List.mem_cons.1 hv with h1 | h1
        · exact absurd h1.symm h
        · exact h1
      simp only [eraseKey, if_neg h, List.length_cons]
      rw [← ih (List.nodup_cons.1 hnd).2 hv']

theorem foldl_eraseKey_sublist (vs : List Int) (m : List (Int × Int)) :
    List.Sublist (vs.foldl eraseKey m) m := by
  induction vs generalizing m with
  | nil => simp
  | cons v rest ih => exact (ih (eraseKey m v)).trans (eraseKey_sublist m v)

theorem mem_foldl_eraseKey {vs : List Int} {m : List (Int × Int)} {p : Int × Int} :
    p ∈ vs.foldl eraseKey m ↔ p ∈ m ∧ p.1 ∉ vs := by
  induction vs generalizing m with
  | nil => simp
  | cons v rest ih =>
    simp only [List.foldl_cons, ih, mem_eraseKey, List.mem_cons]
    constructor
    · rintro ⟨⟨hm, hne⟩, hnin⟩
      exact ⟨hm, by rintro (rfl | h) <;> [exact hne rfl; exact hnin h]⟩
    · rintro ⟨hm, hnin⟩
      exact ⟨⟨hm, fun he => hnin (Or.inl he)⟩, fun h => hnin (Or.inr h)⟩

theorem keysNodup_of_sublist {m m' : List (Int × Int)}
    (hs : List.Sublist m' m) (hnd : KeysNodup m) : KeysNodup m' :=
  (hs.map Prod.fst).nodup hnd

theorem length_foldl_eraseKey {vs : List Int} {m : List (Int × Int)}
    (hnd : KeysNodup m) (hvs : vs.Nodup) (hsub : ∀ v ∈ vs, v ∈ keysOf m) :
    (vs.foldl eraseKey m).length + vs.length = m.length := by
  induction vs generalizing m with
  | nil => simp
  | cons v rest ih =>
    have hv : v ∈ keysOf m := hsub v (List.mem_cons_self v rest)
    have hnd' : KeysNodup (eraseKey m v) :=
      keysNodup_of_sublist (eraseKey_sublist m v) hnd
    have hrest : ∀ w ∈ rest, w ∈ keysOf (eraseKey m v) := by
      intro w hw
      obtain ⟨c, hc⟩ := mem_keysOf.1 (hsub w (List.mem_cons_of_mem v hw))
      refine mem_keysOf.2 ⟨c, mem_eraseKey.2 ⟨hc, ?_⟩⟩
      rintro rfl
      exact (List.nodup_cons.1 hvs).1 hw
    have := ih hnd' (List.nodup_cons.1 hvs).2 hrest
    have h1 := length_eraseKey_add_one hnd hv
    simp only [List.foldl_cons, List.length_cons]
    omega

/-! ### Eviction lemmas -/

theorem keysOf_snapshot (m : List (Int × Int)) : keysOf (snapshotOf m) = keysOf m := by
  simp [keysOf, snapshotOf]

theorem sortedSnapshot_perm (m : List (Int × Int)) :
    (sortedSnapshot m).Perm (snapshotOf m) :=
  List.perm_insertionSort impactLe (snapshotOf m)

theorem length_sortedSnapshot (m : List (Int × Int)) :
    (sortedSnapshot m).length = m.length := by
  rw [(sortedSnapshot_perm m).length_eq]
  simp [snapshotOf]

theorem keysOf_sortedSnapshot_perm (m : List (Int × Int)) :
    (keysOf (sortedSnapshot m)).Perm (keysOf m) := by
  rw [← keysOf_snapshot m]
  exact (sortedSnapshot_perm m).map Prod.fst

theorem victimsOf_nodup {sm : SizeMap} (hnd : KeysNodup sm.m) :
    (victimsOf sm).Nodup := by
  have hsorted : (keysOf (sortedSnapshot sm.m)).Nodup :=
    ((keysOf_sortedSnapshot_perm sm.m).nodup_iff).2 hnd
  have : victimsOf sm = (keysOf (sortedSnapshot sm.m)).take
      (min (evictQuota sm) ((sortedSnapshot sm.m).length : Int)).toNat := by
    simp [victimsOf, keysOf, List.map_take]
  rw [this]
  exact (List.take_sublist _ _).nodup hsorted

theorem victimsOf_subset {sm : SizeMap} :
    ∀ v ∈ victimsOf sm, v ∈ keysOf sm.m := by
  intro v hv
  obtain ⟨x, hx, rfl⟩ := List.mem_map.1 hv
  have hx' : x ∈ sortedSnapshot sm.m := List.mem_of_mem_take hx
  have hx'' : x ∈ snapshotOf sm.m := (sortedSnapshot_perm sm.m).mem_iff.1 hx'
  have : x.1 ∈ keysOf (snapshotOf sm.m) := List.mem_map.2 ⟨x, hx'', rfl⟩
  rwa [keysOf_snapshot] at this

theorem victimsOf_length {sm : SizeMap} :
    (victimsOf sm).length = (min (evictQuota sm) ((sm.m.length : Int))).toNat := by
  have hlen := length_sortedSnapshot sm.m
  simp only [victimsOf, List.length_map, List.length_take, hlen]
  omega

theorem mem_evict {sm : SizeMap} {p : Int × Int} :
    p ∈ (sm.evict).m ↔ p ∈ sm.m ∧ p.1 ∉ victimsOf sm :=
  mem_foldl_eraseKey

theorem evict_card {sm : SizeMap} (hnd : KeysNodup sm.m) :
    ((sm.evict).m).length + (min (evictQuota sm) ((sm.m.length : Int))).toNat
      = sm.m.length := by
  have := @length_foldl_eraseKey (victimsOf sm) sm.m hnd
    (victimsOf_nodup hnd) victimsOf_subset
  rw [victimsOf_length] at this
  exact this

theorem evict_keysNodup {sm : SizeMap} (hnd : KeysNodup sm.m) :
    KeysNodup (sm.evict).m :=
  keysNodup_of_sublist (foldl_eraseKey_sublist _ _) hnd

theorem evict_maxSize (sm : SizeMap) : (sm.evict).maxSize = sm.maxSize := rfl

/-- No evicted entry has a higher (program-computed, i.e. wrapped int64)
impact than any surviving entry. -/
theorem evict_lowest_impact {sm : SizeMap} (hnd : KeysNodup sm.m)
    {p q : Int × Int} (hp : p ∈ sm.m) (hpgone : p ∉ (sm.evict).m)
    (hq : q ∈ (sm.evict).m) :
    int64wrap (p.1 * p.2) ≤ int64wrap (q.1 * q.2) := by
  have hpv : p.1 ∈ victimsOf sm := by
    by_contra h
    exact hpgone (mem_evict.2 ⟨hp, h⟩)
  obtain ⟨hqm, hqv⟩ := mem_evict.1 hq
  set k := (min (evictQuota sm) ((sortedSnapshot sm.m).length : Int)).toNat with hk
  obtain ⟨x, hxtake, hx1⟩ := List.mem_map.1 hpv
  -- the snapshot entry for p carries exactly p's impact
  have hxsnap : x ∈ snapshotOf sm.m :=
    (sortedSnapshot_perm sm.m).mem_iff.1 (List.mem_of_mem_take hxtake)
  obtain ⟨r, hrm, hrx⟩ := List.mem_map.1 hxsnap
  have hr1 : r.1 = p.1 := by rw [← hx1, ← hrx]
  have hr2 : r.2 = p.2 := by
    have hrm' : (p.1, r.2) ∈ sm.m := by
      have : r = (r.1, r.2) := rfl
      rwa [this, hr1] at hrm
    have hpm' : (p.1, p.2) ∈ sm.m := by
      have : p = (p.1, p.2) := rfl
      rwa [this] at hp
    exact keysNodup_value_eq hnd hrm' hpm'
  have hx2 : x.2 = int64wrap (p.1 * p.2) := by
    rw [← hrx, ← hr1, ← hr2]
  -- q's snapshot entry lies in the dropped part of the sorted snapshot
  have hqsnap : (q.1, int64wrap (q.1 * q.2)) ∈ snapshotOf sm.m := by
    apply List.mem_map.2
    exact ⟨q, hqm, rfl⟩
  have hqsorted : (q.1, int64wrap (q.1 * q.2)) ∈ sortedSnapshot sm.m :=
    (sortedSnapshot_perm sm.m).mem_iff.2 hqsnap
  have hqdrop : (q.1, int64wrap (q.1 * q.2)) ∈ (sortedSnapshot sm.m).drop k := by
    have hsplit := List.take_append_drop k (sortedSnapshot sm.m)
    rcases List.mem_append.1 (by rw [hsplit]; exact hqsorted) with h | h
    · exfalso
      exact hqv (List.mem_map.2 ⟨(q.1, int64wrap (q.1 * q.2)), h, rfl⟩)
    · exact h
  have hsorted : List.Sorted impactLe (sortedSnapshot sm.m) :=
    List.sorted_insertionSort impactLe (snapshotOf sm.m)
  have := hsorted.rel_of_mem_take_of_mem_drop hxtake hqdrop
  rw [impactLe, hx2] at this
  exact this

/-! ### Add / bump lemmas -/

theorem int64wrap_bounds (x : Int) :
    -(2 ^ 63) ≤ int64wrap x ∧ int64wrap x < 2 ^ 63 := by
  unfold int64wrap
  omega

theorem bump_length_le (m : List (Int × Int)) (s : Int) :
    (bump m s).length ≤ m.length + 1 := by
  induction m with
  | nil => simp [bump]
  | cons q rest ih =>
    by_cases h : q.1 = s
    · simp [bump, h]
    · simp only [bump, if_neg h, List.length_cons]
      omega

theorem mem_keysOf_bump {m : List (Int × Int)} {s k : Int} :
    k ∈ keysOf (bump m s) ↔ k ∈ keysOf m ∨ k = s := by
  induction m with
  | nil => simp [bump, keysOf]
  | cons q rest ih =>
    by_cases h : q.1 = s
    · subst h
      simp [bump, keysOf]
      tauto
    · simp only [bump, if_neg h, keysOf, List.map_cons, List.mem_cons] at ih ⊢
      rw [ih]
      tauto

theorem bump_keysNodup {m : List (Int × Int)} {s : Int} (hnd : KeysNodup m) :
    KeysNodup (bump m s) := by
  induction m with
  | nil => simp [bump, KeysNodup, keysOf]
  | cons q rest ih =>
    by_cases h : q.1 = s
    · unfold KeysNodup keysOf at hnd ⊢
      simpa [bump, h] using hnd
    · have hnd' := List.nodup_cons.1 hnd
      have : KeysNodup (bump rest s) := ih hnd'.2
      unfold KeysNodup keysOf at this ⊢
      simp only [bump, if_neg h, List.map_cons, List.nodup_cons]
      refine ⟨?_, this⟩
      intro hmem
      rcases mem_keysOf_bump.1 hmem with hin | heq
      · exact hnd'.1 hin
      · exact h heq
    
theorem bump_values {m : List (Int × Int)} {s : Int} {a : Nat}
    (hv : ∀ p ∈ m, 1 ≤ p.2 ∧ p.2 ≤ (a : Int)) (ha : (a : Int) + 1 < 2 ^ 63) :
    ∀ p ∈ bump m s, 1 ≤ p.2 ∧ p.2 ≤ (a : Int) + 1 := by
  induction m with
  | nil =>
    intro p hp
    simp [bump] at hp
    subst hp
    exact ⟨by simp, by simp⟩
  | cons q rest ih =>
    by_cases h : q.1 = s
    · intro p hp
      simp only [bump, if_pos h, List.mem_cons] at hp
      rcases hp with rfl | hp
      · have hq := hv q (List.mem_cons_self q rest)
        have : int64wrap (q.2 + 1) = q.2 + 1 := by
          apply int64wrap_eq_self <;> omega
        simp only [this]
        omega
      · have := hv p (List.mem_cons_of_mem q hp)
        omega
    · intro p hp
      simp only [bump, if_neg h, List.mem_cons] at hp
      rcases hp with rfl | hp
      · have := hv p (List.mem_cons_self p rest)
        omega
      · exact ih (fun r hr => hv r (List.mem_cons_of_mem q hr)) p hp

theorem Add_maxSize (sm : SizeMap) (s : Int) : (sm.Add s).maxSize = sm.maxSize := by
  unfold SizeMap.Add
  split <;> rfl

theorem foldl_Add_maxSize (sizes : List Int) (sm : SizeMap) :
    (sizes.foldl SizeMap.Add sm).maxSize = sm.maxSize := by
  induction sizes generalizing sm with
  | nil => rfl
  | cons s rest ih => simp [List.foldl_cons, ih, Add_maxSize]

/-- The inductive invariant of the size histogram after a sequence of a
Add calls: distinct keys, cardinality bounded by maxSize, every count
between 1 and a. -/
def SMInv (sm : SizeMap) (a : Nat) : Prop :=
  KeysNodup sm.m ∧ (sm.m.length : Int) ≤ sm.maxSize ∧
    ∀ p ∈ sm.m, 1 ≤ p.2 ∧ p.2 ≤ (a : Int)

theorem smInv_add {sm : SizeMap} {a : Nat} (s : Int)
    (hM : 1 ≤ sm.maxSize) (hinv : SMInv sm a) (ha : (a : Int) + 1 < 2 ^ 63) :
    SMInv (sm.Add s) (a + 1) := by
  obtain ⟨hnd, hlen, hval⟩ := hinv
  have hnd' : KeysNodup (bump sm.m s) := bump_keysNodup hnd
  have hval' : ∀ p ∈ bump sm.m s, 1 ≤ p.2 ∧ p.2 ≤ (a : Int) + 1 :=
    bump_values hval ha
  have hlen' : (bump sm.m s).length ≤ sm.m.length + 1 := bump_length_le sm.m s
  unfold SizeMap.Add
  split
  case isTrue hgt =>
    have hq1 : 1 ≤ evictQuota { m := bump sm.m s, maxSize := sm.maxSize } := by
      unfold evictQuota
      dsimp only
      split <;> omega
    have hqle : evictQuota { m := bump sm.m s, maxSize := sm.maxSize } ≤ sm.maxSize := by
      unfold evictQuota
      dsimp only
      split <;> omega
    have hcd := @evict_card { m := bump sm.m s, maxSize := sm.maxSize } hnd'
    refine ⟨evict_keysNodup hnd', ?_, ?_⟩
    · have hms : (SizeMap.evict { m := bump sm.m s, maxSize := sm.maxSize }).maxSize
          = sm.maxSize := rfl
      rw [hms]
      dsimp only at hcd
      omega
    · intro p hp
      exact hval' p (mem_evict.1 hp).1
  case isFalse hle =>
    refine ⟨hnd', ?_, hval'⟩
    dsimp only
    omega

theorem smInv_foldl (sizes : List Int) (sm : SizeMap) (a : Nat)
    (hM : 1 ≤ sm.maxSize) (hinv : SMInv sm a)
    (hlen : (a : Int) + sizes.length < 2 ^ 63) :
    SMInv (sizes.foldl SizeMap.Add sm) (a + sizes.length) := by
  induction sizes generalizing sm a with
  | nil => simpa using hinv
  | cons s rest ih =>
    have h1 : SMInv (sm.Add s) (a + 1) := by
      apply smInv_add s hM hinv
      simp only [List.length_cons] at hlen
      push_cast at hlen ⊢
      omega
    have hM' : 1 ≤ (sm.Add s).maxSize := by rw [Add_maxSize]; exact hM
    have := ih (sm.Add s) (a + 1) hM' h1 (by
      simp only [List.length_cons] at hlen
      push_cast at hlen ⊢
      omega)
    simpa [Nat.add_assoc, Nat.add_comm 1 rest.length] using this

instance (m : List (Int × Int)) : Decidable (KeysNodup m) :=
  inferInstanceAs (Decidable ((keysOf m).Nodup))

/-! ### Claims about the size histogram -/

/-- C4 counterexample: with (Size, Count) = (2^62, 4) the program's impact is
the wrapping int64 product, which is 0, not the saturated maximum 2^64-1 the
claim requires, and the entry loses a TopN ranking to an entry of impact 2
instead of winning it. -/
theorem impact_wraps_not_saturating :
    SizeEntry.Impact { Size := 2 ^ 62, Count := 4 } = 0 ∧
    SizeEntry.ImpactSatSpec { Size := 2 ^ 62, Count := 4 } = 2 ^ 64 - 1 ∧
    SizeMap.TopN { m := [(2 ^ 62, 4), (1, 2)], maxSize := 10 } 2 =
      some [{ Size := 1, Count := 2 }, { Size := 2 ^ 62, Count := 4 }] :=
  ⟨by decide, by decide, by decide⟩

/-- C4 (amended): the derived impact is size × count computed in wrapping
two's-complement signed 64-bit arithmetic; whenever the mathematical product
of a nonnegative size and count fits below 2^63 the impact is exact.  There
is no saturation: an overflowing product wraps and can lose rankings. -/
theorem impact_exact_in_range (e : SizeEntry) (h1 : 0 ≤ e.Size) (h2 : 0 ≤ e.Count)
    (h3 : e.Size * e.Count < 2 ^ 63) : e.Impact = e.Size * e.Count := by
  unfold SizeEntry.Impact
  refine int64wrap_eq_self ?_ h3
  have := mul_nonneg h1 h2
  omega

theorem impact_exact_in_range_witness :
    SizeEntry.Impact { Size := 3, Count := 2 } =
      ({ Size := 3, Count := 2 } : SizeEntry).Size *
        ({ Size := 3, Count := 2 } : SizeEntry).Count :=
  impact_exact_in_range _ (by decide) (by decide) (by decide)

/-- C6: an eviction event (the map has grown past maxSize = M ≥ 1) deletes
exactly ⌊M/10⌋ entries (minimum 1), and no deleted entry has a higher
program-computed impact than any surviving entry. -/
theorem evict_removes_quota_lowest_impact (sm : SizeMap)
    (hnd : KeysNodup sm.m) (hM : 1 ≤ sm.maxSize)
    (hcard : sm.maxSize < (sm.m.length : Int)) :
    evictQuota sm = max (sm.maxSize / 10) 1 ∧
    ((sm.evict).m.length : Int) + evictQuota sm = (sm.m.length : Int) ∧
    ∀ p ∈ sm.m, p ∉ (sm.evict).m → ∀ q ∈ (sm.evict).m,
      int64wrap (p.1 * p.2) ≤ int64wrap (q.1 * q.2) := by
  have hq1 : 1 ≤ evictQuota sm := by
    unfold evictQuota
    split <;> omega
  have hqle : evictQuota sm ≤ sm.maxSize := by
    unfold evictQuota
    split <;> omega
  refine ⟨?_, ?_, ?_⟩
  · unfold evictQuota
    split <;> omega
  · have hcd := evict_card hnd
    omega
  · intro p hp hgone q hq
    exact evict_lowest_impact hnd hp hgone hq

theorem evict_removes_quota_lowest_impact_witness :
    evictQuota { m := [(3, 1), (5, 2), (7, 1), (9, 1)], maxSize := 3 } =
      max (({ m := [(3, 1), (5, 2), (7, 1), (9, 1)], maxSize := 3 } : SizeMap).maxSize / 10) 1 ∧
    (((({ m := [(3, 1), (5, 2), (7, 1), (9, 1)], maxSize := 3 } : SizeMap).evict).m.length : Int)
        + evictQuota { m := [(3, 1), (5, 2), (7, 1), (9, 1)], maxSize := 3 } =
        ((({ m := [(3, 1), (5, 2), (7, 1), (9, 1)], maxSize := 3 } : SizeMap).m.length : Int))) ∧
    ∀ p ∈ ({ m := [(3, 1), (5, 2), (7, 1), (9, 1)], maxSize := 3 } : SizeMap).m,
      p ∉ (({ m := [(3, 1), (5, 2), (7, 1), (9, 1)], maxSize := 3 } : SizeMap).evict).m →
      ∀ q ∈ (({ m := [(3, 1), (5, 2), (7, 1), (9, 1)], maxSize := 3 } : SizeMap).evict).m,
        int64wrap (p.1 * p.2) ≤ int64wrap (q.1 * q.2) :=
  evict_removes_quota_lowest_impact _ (by decide) (by decide) (by decide)

/-- The value-independent part of the histogram invariant: distinct keys and
cardinality bounded by maxSize.  It needs no assumption on the stored
counts, so it survives arbitrarily long Add sequences. -/
def SMCard (sm : SizeMap) : Prop :=
  KeysNodup sm.m ∧ (sm.m.length : Int) ≤ sm.maxSize

theorem smCard_add {sm : SizeMap} (s : Int) (hM : 1 ≤ sm.maxSize)
    (hinv : SMCard sm) : SMCard (sm.Add s) := by
  obtain ⟨hnd, hlen⟩ := hinv
  have hnd' : KeysNodup (bump sm.m s) := bump_keysNodup hnd
  have hlen' : (bump sm.m s).length ≤ sm.m.length + 1 := bump_length_le sm.m s
  unfold SizeMap.Add
  split
  case isTrue hgt =>
    have hq1 : 1 ≤ evictQuota { m := bump sm.m s, maxSize := sm.maxSize } := by
      unfold evictQuota
      dsimp only
      split <;> omega
    have hqle : evictQuota { m := bump sm.m s, maxSize := sm.maxSize } ≤ sm.maxSize := by
      unfold evictQuota
      dsimp only
      split <;> omega
    have hcd := @evict_card { m := bump sm.m s, maxSize := sm.maxSize } hnd'
    refine ⟨evict_keysNodup hnd', ?_⟩
    have hms : (SizeMap.evict { m := bump sm.m s, maxSize := sm.maxSize }).maxSize
        = sm.maxSize := rfl
    rw [hms]
    dsimp only at hcd
    omega
  case isFalse hle =>
    refine ⟨hnd', ?_⟩
    dsimp only
    omega

theorem smCard_foldl (sizes : List Int) (sm : SizeMap)
    (hM : 1 ≤ sm.maxSize) (hinv : SMCard sm) :
    SMCard (sizes.foldl SizeMap.Add sm) := by
  induction sizes generalizing sm with
  | nil => exact hinv
  | cons s rest ih =>
    have hM' : 1 ≤ (sm.Add s).maxSize := by
      rw [Add_maxSize]
      exact hM
    exact ih (sm.Add s) hM' (smCard_add s hM hinv)

/-- C5 (amended): for every capacity M ≥ 1 and every sequence of Add calls,
the cardinality is at most M after each operation, unconditionally; and
provided fewer than 2^63 Add calls have happened (so the int64 counts have
not wrapped), every stored count is at least 1.  (Quantifying over all
sequences covers every prefix, hence "after each public operation".) -/
theorem histogram_bounded_and_positive (M : Int) (sizes : List Int)
    (hM : 1 ≤ M) :
    ((sizes.foldl SizeMap.Add (NewSizeMap M)).m.length : Int) ≤ M ∧
    ((sizes.length : Int) < 2 ^ 63 →
      ∀ p ∈ (sizes.foldl SizeMap.Add (NewSizeMap M)).m, 1 ≤ p.2) := by
  have hmax : (sizes.foldl SizeMap.Add (NewSizeMap M)).maxSize = M :=
    foldl_Add_maxSize sizes (NewSizeMap M)
  constructor
  · have base : SMCard (NewSizeMap M) := by
      refine ⟨?_, ?_⟩
      · simp [KeysNodup, keysOf, NewSizeMap]
      · simp only [NewSizeMap, List.length_nil, Nat.cast_zero]
        omega
    obtain ⟨_, hlen2⟩ := smCard_foldl sizes (NewSizeMap M) hM base
    rw [hmax] at hlen2
    exact hlen2
  · intro hlen
    have base : SMInv (NewSizeMap M) 0 := by
      refine ⟨?_, ?_, ?_⟩
      · simp [KeysNodup, keysOf, NewSizeMap]
      · simp only [NewSizeMap, List.length_nil, Nat.cast_zero]
        omega
      · intro p hp
        simp [NewSizeMap] at hp
    have hinv := smInv_foldl sizes (NewSizeMap M) 0 hM base (by push_cast; omega)
    obtain ⟨_, _, hval⟩ := hinv
    exact fun p hp => (hval p hp).1

theorem histogram_bounded_and_positive_witness :
    ((([4, 4, 9, 7] : List Int).foldl SizeMap.Add (NewSizeMap 2)).m.length : Int) ≤ 2 ∧
    ∀ p ∈ (([4, 4, 9, 7] : List Int).foldl SizeMap.Add (NewSizeMap 2)).m, 1 ≤ p.2 :=
  ⟨(histogram_bounded_and_positive 2 [4, 4, 9, 7] (by decide)).1,
   (histogram_bounded_and_positive 2 [4, 4, 9, 7] (by decide)).2 (by decide)⟩

theorem add_replicate_seven : ∀ (k : Nat) (c : Int),
    -(2 ^ 63) ≤ c → c < 2 ^ 63 →
    (List.replicate k (7 : Int)).foldl SizeMap.Add { m := [(7, c)], maxSize := 10 } =
      { m := [(7, int64wrap (c + k))], maxSize := 10 }
  | 0, c, h1, h2 => by
    simp [int64wrap_eq_self h1 h2]
  | (k + 1), c, h1, h2 => by
    have hstep : SizeMap.Add { m := [(7, c)], maxSize := 10 } 7 =
        { m := [(7, int64wrap (c + 1))], maxSize := 10 } := by
      unfold SizeMap.Add bump
      norm_num
    have harg : c + 1 + (k : Int) = c + ((k + 1 : Nat) : Int) := by
      push_cast
      ring
    rw [List.replicate_succ, List.foldl_cons, hstep,
      add_replicate_seven k _ (int64wrap_bounds _).1 (int64wrap_bounds _).2,
      int64wrap_add_left, harg]

/-- C5 counterexample: after 2^63 Add(7) calls on a never-full histogram the
stored count has wrapped to -2^63 < 1; zero-and-below counts can be stored
for (astronomically long) sequences, so the unrestricted claim fails. -/
theorem histogram_count_wraps :
    ¬ ∀ p ∈ ((List.replicate (2 ^ 63) (7 : Int)).foldl SizeMap.Add (NewSizeMap 10)).m,
        1 ≤ p.2 := by
  intro h
  have h1 : (2 ^ 63 : Nat) = (2 ^ 63 - 1) + 1 := by norm_num
  have h2 : SizeMap.Add (NewSizeMap 10) 7 = { m := [(7, 1)], maxSize := 10 } := by decide
  have h3 := add_replicate_seven (2 ^ 63 - 1) 1 (by norm_num) (by norm_num)
  rw [h1, List.replicate_succ, List.foldl_cons, h2, h3] at h
  have h5 := h (7, int64wrap (1 + ((2 ^ 63 - 1 : Nat) : Int))) (by simp)
  have h4 : (1 : Int) + ((2 ^ 63 - 1 : Nat) : Int) = 2 ^ 63 := by
    have hc : ((2 ^ 63 - 1 : Nat) : Int) = 2 ^ 63 - 1 := by push_cast
    rw [hc]
    ring
  rw [h4] at h5
  have h6 : int64wrap (2 ^ 63) = -(2 ^ 63) := by
    unfold int64wrap
    decide
  rw [h6] at h5
  norm_num at h5

/-- C7: for every state and every n ≥ 0, TopN returns exactly the first
min(n, k) of the k entries with count ≥ 2 sorted non-increasing by impact,
and no returned entry has count < 2. -/
theorem topn_sorted_filtered (sm : SizeMap) (n : Int) (hn : 0 ≤ n) :
    ∃ s, s.Perm sm.qualifying ∧ List.Sorted impactGe s ∧
      sm.TopN n = some (s.take (min n.toNat sm.qualifying.length)) ∧
      ∀ e ∈ s.take (min n.toNat sm.qualifying.length), 2 ≤ e.Count := by
  refine ⟨List.insertionSort impactGe sm.qualifying,
    List.perm_insertionSort impactGe sm.qualifying,
    List.sorted_insertionSort impactGe sm.qualifying, ?_, ?_⟩
  · unfold SizeMap.TopN
    have hlen : (List.insertionSort impactGe sm.qualifying).length
        = sm.qualifying.length := List.length_insertionSort impactGe sm.qualifying
    rw [if_pos]
    · congr 1
      congr 1
      rw [hlen]
      omega
    · rw [hlen]
      have : (0 : Int) ≤ (sm.qualifying.length : Int) := Int.natCast_nonneg _
      omega
  · intro e he
    have h1 : e ∈ List.insertionSort impactGe sm.qualifying := List.mem_of_mem_take he
    rw [List.mem_insertionSort] at h1
    obtain ⟨p, hp, rfl⟩ := List.mem_map.1 h1
    have := (List.mem_filter.1 hp).2
    simpa using this

theorem topn_sorted_filtered_witness :
    ∃ s, s.Perm (SizeMap.qualifying { m := [(5, 3), (2, 1)], maxSize := 10 }) ∧
      List.Sorted impactGe s ∧
      SizeMap.TopN { m := [(5, 3), (2, 1)], maxSize := 10 } 1 =
        some (s.take (min (Int.toNat 1)
          (SizeMap.qualifying { m := [(5, 3), (2, 1)], maxSize := 10 }).length)) ∧
      ∀ e ∈ s.take (min (Int.toNat 1)
          (SizeMap.qualifying { m := [(5, 3), (2, 1)], maxSize := 10 }).length),
        2 ≤ e.Count :=
  topn_sorted_filtered _ 1 (by decide)

/-- C9: the slice bound min(n, len) of TopN is in range and the call returns
normally exactly when n ≥ 0; for negative n the bound is negative and the
Go slice expression panics (modelled by none). -/
theorem topn_bound_safety (sm : SizeMap) (n : Int) :
    (0 ≤ n → (sm.TopN n).isSome = true) ∧ (n < 0 → sm.TopN n = none) := by
  constructor
  · intro hn
    unfold SizeMap.TopN
    rw [if_pos]
    · rfl
    · have : (0 : Int) ≤ ((List.insertionSort impactGe sm.qualifying).length : Int) :=
        Int.natCast_nonneg _
      omega
  · intro hn
    unfold SizeMap.TopN
    have hle : min n ((List.insertionSort impactGe sm.qualifying).length : Int) ≤ n :=
      min_le_left _ _
    rw [if_neg (by omega)]

theorem topn_bound_safety_witness :
    ((NewSizeMap 5).TopN 3).isSome = true ∧ (NewSizeMap 5).TopN (-1) = none :=
  ⟨(topn_bound_safety (NewSizeMap 5) 3).1 (by decide),
   (topn_bound_safety (NewSizeMap 5) (-1)).2 (by decide)⟩

/-! ### Pass-2 dedup engine (part_000) -/

/-- Extent represents a contiguous physical region of a file on disk
(part_000, Extent). -/
structure Extent where
  Logical : Nat
  Physical : Nat
  Length : Nat
  Flags : Nat
deriving DecidableEq

/-- SameExtents reports whether two extent lists have identical physical
mappings (part_000, SameExtents): equal length and pairwise equal
(Physical, Length); Logical and Flags are not compared. -/
def SameExtents (a b : List Extent) : Bool :=
  a.length == b.length &&
    (a.zip b).all fun p => p.1.Physical == p.2.Physical && p.1.Length == p.2.Length

/-- DedupStats tracks deduplication results (part_000, DedupStats); the
counters are Go int64, so additions wrap. -/
structure DedupStats where
  BytesSaved : Int
  FilesDeduped : Int
  AlreadyDeduped : Int
  Errors : Int
deriving DecidableEq

/-- fileRef is a reference file representing a unique content group within a
size class (part_000, fileRef). -/
structure fileRef where
  path : String
  extents : List Extent
deriving DecidableEq

/-- The effectful operations processFile calls, abstracted as an environment:
getExtents and filesEqual may fail (Except), sameInode mirrors the Go pair
return (bool, error), and dedupOk tells whether a dedupFile invocation
succeeds.  The concrete adapters instantiate this (see unsupportedEnv). -/
structure Env where
  getExtents : String → Except String (List Extent)
  sameInode : String → String → Bool × Option String
  filesEqual : String → String → Except String Bool
  dedupOk : String → String → Bool

/-- Instrumentation: which identity-tier check processFile performed against
which reference. -/
inductive Check where
  | inode (refPath : String)
  | extents (refPath : String)
  | bytes (refPath : String)
deriving DecidableEq

/-- Instrumentation: how processFile ended. -/
inductive POutcome where
  | skipExtents
  | firstRef
  | alreadyInode
  | alreadyExtents
  | dryRunHit
  | deduped
  | dedupFailed
  | newRef
deriving DecidableEq

/-- Result of the reference loop of processFile: the updated reference list
for the size class, updated stats, the dedupFile invocations performed
(actions), the tier checks performed, and the outcome. -/
structure RefsResult where
  refs : List fileRef
  stats : DedupStats
  actions : List (String × String)
  checks : List Check
  outcome : POutcome
deriving DecidableEq

/-- The `for _, ref := range refs` loop of processFile (part_000), tier by
tier.  The Go statement `same, _ := sameInode(ref.path, path)` discards the
error and branches on the returned bool only.  Reference updates through the
*fileRef pointer are modelled by rebuilding the list. -/
def processRefs (env : Env) (dryRun : Bool) (path : String) (size : Int)
    (extents : List Extent) : List fileRef → DedupStats → RefsResult
  | [], stats =>
    { refs := [{ path := path, extents := extents }], stats := stats,
      actions := [], checks := [], outcome := .newRef }
  | ref :: rest, stats =>
    if (env.sameInode ref.path path).1 then
      { refs := (if path.length < ref.path.length then
            { path := path, extents := extents } else ref) :: rest,
        stats := { stats with AlreadyDeduped := int64wrap (stats.AlreadyDeduped + 1) },
        actions := [], checks := [.inode ref.path], outcome := .alreadyInode }
    else if SameExtents ref.extents extents then
      { refs := (if path.length < ref.path.length then
            { path := path, extents := extents } else ref) :: rest,
        stats := { stats with AlreadyDeduped := int64wrap (stats.AlreadyDeduped + 1) },
        actions := [], checks := [.inode ref.path, .extents ref.path],
        outcome := .alreadyExtents }
    else
      match env.filesEqual ref.path path with
      | .error _ =>
        let r := processRefs env dryRun path size extents rest stats
        { r with refs := ref :: r.refs,
                 checks := .inode ref.path :: .extents ref.path ::
                   .bytes ref.path :: r.checks }
      | .ok false =>
        let r := processRefs env dryRun path size extents rest stats
        { r with refs := ref :: r.refs,
                 checks := .inode ref.path :: .extents ref.path ::
                   .bytes ref.path :: r.checks }
      | .ok true =>
        if dryRun then
          { refs := ref :: rest,
            stats := { stats with
              BytesSaved := int64wrap (stats.BytesSaved + size),
              FilesDeduped := int64wrap (stats.FilesDeduped + 1) },
            actions := [],
            checks := [.inode ref.path, .extents ref.path, .bytes ref.path],
            outcome := .dryRunHit }
        else if env.dedupOk ref.path path then
          { refs := ref :: rest,
            stats := { stats with
              BytesSaved := int64wrap (stats.BytesSaved + size),
              FilesDeduped := int64wrap (stats.FilesDeduped + 1) },
            actions := [(ref.path, path)],
            checks := [.inode ref.path, .extents ref.path, .bytes ref.path],
            outcome := .deduped }
        else
          { refs := ref :: rest,
            stats := { stats with Errors := int64wrap (stats.Errors + 1) },
            actions := [(ref.path, path)],
            checks := [.inode ref.path, .extents ref.path, .bytes ref.path],
            outcome := .dedupFailed }

/-- groups[size] of Go: missing key yields the empty (nil) slice. -/
def groupsGet (g : List (Int × List fileRef)) (size : Int) : List fileRef :=
  (List.lookup size g).getD []

/-- groups[size] = refs of Go. -/
def groupsSet (g : List (Int × List fileRef)) (size : Int)
    (refs : List fileRef) : List (Int × List fileRef) :=
  (size, refs) :: g.filter fun p => !(p.1 == size)

/-- Result of processFile: the updated content-group table plus the
instrumentation of RefsResult. -/
structure ProcResult where
  groups : List (Int × List fileRef)
  stats : DedupStats
  actions : List (String × String)
  checks : List Check
  outcome : POutcome
deriving DecidableEq

/-- processFile (part_000): first file of a size becomes the reference
(skipped if its extents cannot be read); otherwise the candidate's extents
are fetched (skip on failure) and the three-tier reference loop runs. -/
def processFile (env : Env) (dryRun : Bool) (path : String) (size : Int)
    (groups : List (Int × List fileRef)) (stats : DedupStats) : ProcResult :=
  match groupsGet groups size with
  | [] =>
    match env.getExtents path with
    | .error _ =>
      { groups := groups, stats := stats, actions := [], checks := [],
        outcome := .skipExtents }
    | .ok extents =>
      { groups := groupsSet groups size [{ path := path, extents := extents }],
        stats := stats, actions := [], checks := [], outcome := .firstRef }
  | ref :: rest =>
    match env.getExtents path with
    | .error _ =>
      { groups := groups, stats := stats, actions := [], checks := [],
        outcome := .skipExtents }
    | .ok extents =>
      let r := processRefs env dryRun path size extents (ref :: rest) stats
      { groups := groupsSet groups size r.refs, stats := r.stats,
        actions := r.actions, checks := r.checks, outcome := r.outcome }

/-- The zero-valued stats Dedup starts from. -/
def zeroStats : DedupStats :=
  { BytesSaved := 0, FilesDeduped := 0, AlreadyDeduped := 0, Errors := 0 }

/-- One step of Dedup's walker callback (part_000, Dedup): files whose size
is not in the target set are ignored, the rest go through processFile. -/
def dedupFold (env : Env) (dryRun : Bool) (targets : List SizeEntry)
    (acc : List (Int × List fileRef) × DedupStats × List (String × String))
    (f : String × Int) :
    List (Int × List fileRef) × DedupStats × List (String × String) :=
  if targets.any fun t => t.Size == f.2 then
    let r := processFile env dryRun f.1 f.2 acc.1 acc.2.1
    (r.groups, r.stats, acc.2.2 ++ r.actions)
  else acc

/-- Result of one pass-2 run. -/
structure RunResult where
  stats : DedupStats
  groups : List (Int × List fileRef)
  actions : List (String × String)
  err : Option String
deriving DecidableEq

/-- Dedup (part_000): pass 2 over the files the walker reports (the walker
is modelled by the explicit (path, size) list).  The returned error is the
error of walkRandom, which is always nil (see walkRandom below), hence the
literal none. -/
def Dedup (env : Env) (files : List (String × Int)) (targets : List SizeEntry)
    (dryRun : Bool) : RunResult :=
  { stats := (files.foldl (dedupFold env dryRun targets) ([], zeroStats, [])).2.1,
    groups := (files.foldl (dedupFold env dryRun targets) ([], zeroStats, [])).1,
    actions := (files.foldl (dedupFold env dryRun targets) ([], zeroStats, [])).2.2,
    err := none }

/-- The fixed error of the non-Linux platform stub (part_001). -/
def errUnsupported : String := "fastdedup requires Linux (btrfs is Linux-only)"

/-- The non-Linux platform adapter (part_001 stub): getExtents and the rest
return the fixed unsupported error immediately; sameInode returns
(false, err).  filesEqual and dedupFile are not platform stubs (they are
portable code), so they stay parameters — they are unreachable anyway. -/
def unsupportedEnv (fe : String → String → Except String Bool)
    (dk : String → String → Bool) : Env :=
  { getExtents := fun _ => .error errUnsupported,
    sameInode := fun _ _ => (false, some errUnsupported),
    filesEqual := fe,
    dedupOk := dk }

/-- The driver's reaction to a pass error (main.go): log at error and exit
with code 1; otherwise continue (exit 0 at the end). -/
def mainExitCode (passErr : Option String) : Nat :=
  match passErr with
  | some _ => 1
  | none => 0

/-! ### Claims about the engine -/

theorem processFile_unsupported (fe : String → String → Except String Bool)
    (dk : String → String → Bool) (dryRun : Bool) (path : String) (size : Int)
    (stats : DedupStats) :
    processFile (unsupportedEnv fe dk) dryRun path size [] stats =
      { groups := [], stats := stats, actions := [], checks := [],
        outcome := .skipExtents } := rfl

/-- C2 (amended): with the non-reflink platform stub every file-level
getExtents call fails with the fixed unsupported error, so processFile skips
every file; pass 2 completes with zero stats, an empty group table, no
mutations and a nil error, and the driver exits 0.  The run is NOT fatal. -/
theorem dedup_unsupported_skips_everything
    (fe : String → String → Except String Bool) (dk : String → String → Bool)
    (files : List (String × Int)) (targets : List SizeEntry) (dryRun : Bool) :
    Dedup (unsupportedEnv fe dk) files targets dryRun =
      { stats := zeroStats, groups := [], actions := [], err := none } ∧
    mainExitCode (Dedup (unsupportedEnv fe dk) files targets dryRun).err = 0 := by
  have hfold : files.foldl (dedupFold (unsupportedEnv fe dk) dryRun targets)
      ([], zeroStats, []) = ([], zeroStats, []) := by
    induction files with
    | nil => rfl
    | cons f rest ih =>
      rw [List.foldl_cons]
      have hstep : dedupFold (unsupportedEnv fe dk) dryRun targets
          ([], zeroStats, []) f = ([], zeroStats, []) := by
        unfold dedupFold
        split
        · simp [processFile_unsupported]
        · rfl
      rw [hstep, ih]
  constructor
  · unfold Dedup
    rw [hfold]
  · unfold Dedup mainExitCode
    rfl

/-- C2 counterexample: on the unsupported platform, a run over two
same-sized files (a would-be dedup pair) returns a nil pass-2 error and zero
stats, so the driver exits 0 — the run does not fail fatally at the first
file-level operation; it silently skips every file and exits successfully. -/
theorem unsupported_run_not_fatal :
    (Dedup (unsupportedEnv (fun _ _ => Except.ok true) (fun _ _ => true))
        [("/a/x", 5), ("/a/y", 5)] [{ Size := 5, Count := 2 }] false).err = none ∧
    (Dedup (unsupportedEnv (fun _ _ => Except.ok true) (fun _ _ => true))
        [("/a/x", 5), ("/a/y", 5)] [{ Size := 5, Count := 2 }] false).stats
      = zeroStats ∧
    mainExitCode (Dedup (unsupportedEnv (fun _ _ => Except.ok true)
        (fun _ _ => true))
        [("/a/x", 5), ("/a/y", 5)] [{ Size := 5, Count := 2 }] false).err = 0 :=
  ⟨rfl, rfl, rfl⟩

theorem processRefs_dryrun_actions (env : Env) (path : String) (size : Int)
    (extents : List Extent) :
    ∀ (refs : List fileRef) (stats : DedupStats),
      (processRefs env true path size extents refs stats).actions = [] := by
  intro refs
  induction refs with
  | nil => intro stats; rfl
  | cons ref rest ih =>
    intro stats
    unfold processRefs
    split
    · rfl
    · split
      · rfl
      · rcases hfe : env.filesEqual ref.path path with e | b
        · exact ih stats
        · cases b
          · exact ih stats
          · rfl

theorem processRefs_dryrun_stats (env : Env) (path : String) (size : Int)
    (extents : List Extent) :
    ∀ (refs : List fileRef) (stats : DedupStats),
      (processRefs env true path size extents refs stats).outcome = POutcome.dryRunHit →
      (processRefs env true path size extents refs stats).stats =
        { stats with BytesSaved := int64wrap (stats.BytesSaved + size),
                     FilesDeduped := int64wrap (stats.FilesDeduped + 1) } := by
  intro refs
  induction refs with
  | nil =>
    intro stats h
    exact absurd h (by simp [processRefs])
  | cons ref rest ih =>
    intro stats
    unfold processRefs
    split
    · intro h
      exact absurd h (by simp)
    · split
      · intro h
        exact absurd h (by simp)
      · rcases hfe : env.filesEqual ref.path path with e | b
        · exact ih stats
        · cases b
          · exact ih stats
          · intro _
            rfl

theorem processFile_dryrun_actions (env : Env) (path : String) (size : Int)
    (groups : List (Int × List fileRef)) (stats : DedupStats) :
    (processFile env true path size groups stats).actions = [] := by
  unfold processFile
  split
  · split <;> rfl
  · split
    · rfl
    · exact processRefs_dryrun_actions env path size _ _ stats

theorem dedup_foldl_dryrun_actions (env : Env) (targets : List SizeEntry) :
    ∀ (files : List (String × Int))
      (acc : List (Int × List fileRef) × DedupStats × List (String × String)),
      acc.2.2 = [] →
      (files.foldl (dedupFold env true targets) acc).2.2 = [] := by
  intro files
  induction files with
  | nil => intro acc h; exact h
  | cons f rest ih =>
    intro acc h
    rw [List.foldl_cons]
    apply ih
    unfold dedupFold
    split
    · simp [h, processFile_dryrun_actions]
    · exact h

/-- C8: pass 2 in dry-run mode performs no filesystem mutation (it never
invokes the replace procedure: the recorded dedupFile action list is empty),
and on a tier-3 match it accounts the bytes saved and the files-deduped
counter and returns without replacing. -/
theorem dryrun_pure_and_accounted :
    (∀ (env : Env) (files : List (String × Int)) (targets : List SizeEntry),
      (Dedup env files targets true).actions = []) ∧
    (∀ (env : Env) (path : String) (size : Int)
        (groups : List (Int × List fileRef)) (stats : DedupStats),
      (processFile env true path size groups stats).actions = [] ∧
      ((processFile env true path size groups stats).outcome = POutcome.dryRunHit →
        (processFile env true path size groups stats).stats =
          { stats with BytesSaved := int64wrap (stats.BytesSaved + size),
                       FilesDeduped := int64wrap (stats.FilesDeduped + 1) })) := by
  constructor
  · intro env files targets
    unfold Dedup
    exact dedup_foldl_dryrun_actions env targets files ([], zeroStats, []) rfl
  · intro env path size groups stats
    refine ⟨processFile_dryrun_actions env path size groups stats, ?_⟩
    unfold processFile
    split
    · split <;> intro h <;> exact absurd h (by simp)
    · split
      · intro h
        exact absurd h (by simp)
      · exact processRefs_dryrun_stats env path size _ _ stats

/-- A concrete environment exhibiting a tier-3 match: the candidate "b" has
different physical extents from reference "a" but equal content. -/
def envW : Env :=
  { getExtents := fun p =>
      Except.ok [{ Logical := 0, Physical := if p = "b" then 2 else 1,
                   Length := 4, Flags := 0 }],
    sameInode := fun _ _ => (false, none),
    filesEqual := fun _ _ => Except.ok true,
    dedupOk := fun _ _ => true }

/-- A group table holding the single reference "a" for size 4. -/
def groupsW : List (Int × List fileRef) :=
  [(4, [{ path := "a",
          extents := [{ Logical := 0, Physical := 1, Length := 4, Flags := 0 }] }])]

theorem dryrun_pure_and_accounted_witness :
    (Dedup envW [("a", 4), ("b", 4)] [{ Size := 4, Count := 2 }] true).actions = [] ∧
    (processFile envW true "b" 4 groupsW zeroStats).stats =
      { zeroStats with BytesSaved := int64wrap (zeroStats.BytesSaved + 4),
                       FilesDeduped := int64wrap (zeroStats.FilesDeduped + 1) } :=
  ⟨dryrun_pure_and_accounted.1 envW [("a", 4), ("b", 4)] [{ Size := 4, Count := 2 }],
   (dryrun_pure_and_accounted.2 envW "b" 4 groupsW zeroStats).2 (by decide)⟩

/-- C10: when same_inode returns an error during the tier-1 check, the error
is discarded (processFile behaves exactly as if same_inode had returned
ok-false) and the candidate is not skipped: the engine goes on to the tier-2
extent comparison and the tier-3 byte comparison against the same
reference. -/
theorem sameInode_error_ignored (env : Env) (dryRun : Bool) (path : String)
    (size : Int) (groups : List (Int × List fileRef)) (stats : DedupStats)
    (ref : fileRef) (e : String) (ext : List Extent)
    (hg : groupsGet groups size = [ref])
    (he : env.sameInode ref.path path = (false, some e))
    (hx : env.getExtents path = Except.ok ext)
    (hne : SameExtents ref.extents ext = false) :
    processFile env dryRun path size groups stats =
      processFile { env with sameInode := fun _ _ => (false, none) }
        dryRun path size groups stats ∧
    (processFile env dryRun path size groups stats).checks =
      [Check.inode ref.path, Check.extents ref.path, Check.bytes ref.path] := by
  have h1 : (env.sameInode ref.path path).1 = false := by rw [he]
  have hpr : ∀ env' : Env, env'.sameInode ref.path path = (false, none) →
      env'.getExtents = env.getExtents → env'.filesEqual = env.filesEqual →
      env'.dedupOk = env.dedupOk →
      processRefs env' dryRun path size ext [ref] stats =
        processRefs env dryRun path size ext [ref] stats := by
    intro env' hsi hge hfe hdk
    unfold processRefs
    rw [hsi, h1, hfe, hdk]
    rfl
  have hchecks : (processRefs env dryRun path size ext [ref] stats).checks =
      [Check.inode ref.path, Check.extents ref.path, Check.bytes ref.path] := by
    unfold processRefs
    rw [h1]
    simp only [Bool.false_eq_true, if_false, hne]
    rcases hfe2 : env.filesEqual ref.path path with e2 | b2
    · rfl
    · cases b2
      · rfl
      · cases dryRun
        · cases hdk2 : env.dedupOk ref.path path <;> simp [hdk2]
        · rfl
  have hcons : ∀ env' : Env, env'.getExtents path = Except.ok ext →
      processFile env' dryRun path size groups stats =
        { groups := groupsSet groups size
            (processRefs env' dryRun path size ext [ref] stats).refs,
          stats := (processRefs env' dryRun path size ext [ref] stats).stats,
          actions := (processRefs env' dryRun path size ext [ref] stats).actions,
          checks := (processRefs env' dryRun path size ext [ref] stats).checks,
          outcome := (processRefs env' dryRun path size ext [ref] stats).outcome } := by
    intro env' hx'
    unfold processFile
    rw [hg, hx']
  constructor
  · rw [hcons env hx, hcons { env with sameInode := fun _ _ => (false, none) } hx,
      hpr { env with sameInode := fun _ _ => (false, none) } rfl rfl rfl rfl]
  · rw [hcons env hx]
    exact hchecks

/-- An environment whose sameInode always fails (with the false result both
platform adapters pair with an error). -/
def env10 : Env :=
  { getExtents := fun _ =>
      Except.ok [{ Logical := 0, Physical := 2, Length := 4, Flags := 0 }],
    sameInode := fun _ _ => (false, some "stat failed"),
    filesEqual := fun _ _ => Except.ok false,
    dedupOk := fun _ _ => true }

/-- The single reference of the size-4 class in the C10 witness. -/
def ref10 : fileRef :=
  { path := "a",
    extents := [{ Logical := 0, Physical := 1, Length := 4, Flags := 0 }] }

/-- The group table of the C10 witness. -/
def groups10 : List (Int × List fileRef) := [(4, [ref10])]

theorem sameInode_error_ignored_witness :
    processFile env10 false "b" 4 groups10 zeroStats =
      processFile { env10 with sameInode := fun _ _ => (false, none) }
        false "b" 4 groups10 zeroStats ∧
    (processFile env10 false "b" 4 groups10 zeroStats).checks =
      [Check.inode ref10.path, Check.extents ref10.path, Check.bytes ref10.path] :=
  sameInode_error_ignored env10 false "b" 4 groups10 zeroStats ref10 "stat failed"
    [{ Logical := 0, Physical := 2, Length := 4, Flags := 0 }]
    (by decide) rfl rfl (by decide)

/-! ### The directory walker (walk.go) -/

/-- A node of the model directory tree.  A directory carries whether
os.ReadDir succeeds on it; a regular file carries its size and whether
entry.Info() succeeds.  Shuffling is modelled by quantifying over the entry
order, which the walker consumes as given. -/
inductive FNode where
  | dir (readable : Bool) (entries : List (String × FNode))
  | file (size : Int) (infoOk : Bool)
  | symlink
  | special

mutual

/-- One iteration of walkRandom's entry loop (walk.go): symlinks are skipped
entirely; directories are recursed into (walkRandom on an unlistable
directory logs at debug and returns nil, contributing nothing); non-regular
entries are skipped; files whose Info() fails or whose size is 0 are
skipped; otherwise fn(path, size) fires. -/
def walkEntry (dirPath name : String) : FNode → List (String × Int)
  | .symlink => []
  | .special => []
  | .dir readable es =>
    if readable then walkEntries (dirPath ++ "/" ++ name) es else []
  | .file size infoOk =>
    if infoOk then (if size = 0 then [] else [(dirPath ++ "/" ++ name, size)]) else []

/-- walkRandom's loop over the (shuffled) directory listing. -/
def walkEntries (dirPath : String) : List (String × FNode) → List (String × Int)
  | [] => []
  | (name, node) :: rest => walkEntry dirPath name node ++ walkEntries dirPath rest

end

/-- walkRandom (walk.go) on a root node: the collected fn(path, size) calls
and the returned error.  Both return statements of the Go function return
nil — an unreadable root (or a non-directory root) is logged at debug and
yields nil exactly like any deeper directory. -/
def walkRandom (dirPath : String) (root : FNode) : List (String × Int) × Option String :=
  match root with
  | .dir true es => (walkEntries dirPath es, none)
  | _ => ([], none)

/-- C3 counterexample: with an unreadable root holding a regular file, the
walk visits nothing and returns a nil error, so the driver's error branch is
not taken and the process exits 0 — the root failure does not surface, is
not logged at error level, and does not produce exit code 1. -/
theorem unreadable_root_not_fatal :
    walkRandom "/r" (FNode.dir false [("a", FNode.file 5 true)]) = ([], none) ∧
    mainExitCode (walkRandom "/r" (FNode.dir false [("a", FNode.file 5 true)])).2 = 0 :=
  ⟨rfl, rfl⟩

/-- C3 (amended): the walker never returns an error — an unreadable root is
skipped with a debug log and a nil error exactly like any other unreadable
directory, so the driver's exit-1 branch is unreachable from walk errors and
the run exits 0; every unreadable non-root directory is skipped and
traversal continues with its siblings unchanged. -/
theorem walker_never_errors_and_skips :
    (∀ (dirPath : String) (root : FNode),
      (walkRandom dirPath root).2 = none ∧
      mainExitCode (walkRandom dirPath root).2 = 0) ∧
    (∀ (dirPath name : String) (es pre post : List (String × FNode)),
      walkEntries dirPath (pre ++ (name, FNode.dir false es) :: post) =
        walkEntries dirPath (pre ++ post)) := by
  constructor
  · intro dirPath root
    match root with
    | .dir true es => exact ⟨rfl, rfl⟩
    | .dir false es => exact ⟨rfl, rfl⟩
    | .file s i => exact ⟨rfl, rfl⟩
    | .symlink => exact ⟨rfl, rfl⟩
    | .special => exact ⟨rfl, rfl⟩
  · intro dirPath name es pre post
    induction pre with
    | nil => simp [walkEntries, walkEntry]
    | cons p rest ih =>
      rcases p with ⟨n, node⟩
      simp only [List.cons_append, walkEntries, List.append_eq, ih]

/-! ### The atomic replace procedure dedupFile (part_000) over a model FS -/

/-- The observable state of one file: byte content, mode, owner, times and
physical extents (everything dedupFile's rollback must preserve). -/
structure MFile where
  content : List Nat
  mode : Nat
  uid : Nat
  gid : Nat
  atime : Nat
  mtime : Nat
  extents : List Extent
deriving DecidableEq

/-- The model filesystem: an association list path → file. -/
abbrev FS := List (String × MFile)

/-- Lookup of a path in the model filesystem. -/
def fsLookup : FS → String → Option MFile
  | [], _ => none
  | e :: rest, p => if e.1 = p then some e.2 else fsLookup rest p

/-- Removal of a path from the model filesystem (unlink). -/
def fsErase : FS → String → FS
  | [], _ => []
  | e :: rest, p => if e.1 = p then fsErase rest p else e :: fsErase rest p

/-- Creation/overwrite of a path in the model filesystem. -/
def fsInsert (fs : FS) (p : String) (f : MFile) : FS := (p, f) :: fsErase fs p

theorem fsLookup_erase (fs : FS) (p q : String) :
    fsLookup (fsErase fs p) q = if q = p then none else fsLookup fs q := by
  induction fs with
  | nil => simp [fsErase, fsLookup]
  | cons e rest ih =>
    by_cases he : e.1 = p
    · rw [show fsErase (e :: rest) p = fsErase rest p by simp [fsErase, he], ih]
      by_cases hq : q = p
      · simp [hq]
      · have hne : ¬ e.1 = q := fun h => hq (by rw [← h, he])
        simp [fsLookup, hne, hq]
    · rw [show fsErase (e :: rest) p = e :: fsErase rest p by simp [fsErase, he]]
      by_cases hqe : e.1 = q
      · have hq : ¬ q = p := fun h => he (by rw [hqe, h])
        simp [fsLookup, hqe, hq]
      · simp [fsLookup, hqe, ih]

theorem fsLookup_insert (fs : FS) (p : String) (f : MFile) (q : String) :
    fsLookup (fsInsert fs p f) q = if q = p then some f else fsLookup fs q := by
  unfold fsInsert
  by_cases hq : q = p
  · simp [fsLookup, hq]
  · have hpq : ¬ p = q := fun h => hq h.symm
    simp [fsLookup, hpq, hq, fsLookup_erase]

/-- The distinct suffix makes the backup path differ from the original. -/
theorem tmp_path_ne (d : String) : d ++ ".dedup-tmp" ≠ d := by
  intro h
  have hlen := congrArg String.length h
  rw [String.length_append] at hlen
  have h10 : (".dedup-tmp" : String).length = 10 := rfl
  omega

/-- Failure injection and kernel nondeterminism for one dedupFile run: which
syscall fails, which extents the filesystem really assigns to the clone (a
genuine reflink assigns src's extents; a filesystem that silently refuses
reflink semantics assigns fresh ones), the calling process identity and the
clock. -/
structure Oracle where
  renameFails : Bool
  openSrcFails : Bool
  createFails : Bool
  ficloneFails : Bool
  srcExtentsFail : Bool
  dstExtentsFail : Bool
  restoreFails : Bool
  cloneExtents : List Extent
  procUid : Nat
  procGid : Nat
  now : Nat

/-- reflinkCopy (platform_linux.go): open src for reading, create/truncate
dst with the given permissions, FICLONE.  On FICLONE failure the truncated
empty dst remains; on success dst holds src's content with the extents the
filesystem assigned. -/
def reflinkCopy (o : Oracle) (fs : FS) (src dst : String) (perm : Nat) :
    FS × Bool :=
  if o.openSrcFails then (fs, false)
  else
    match fsLookup fs src with
    | none => (fs, false)
    | some sf =>
      if o.createFails then (fs, false)
      else if o.ficloneFails then
        (fsInsert fs dst
          { content := [], mode := perm, uid := o.procUid, gid := o.procGid,
            atime := o.now, mtime := o.now, extents := [] }, false)
      else
        (fsInsert fs dst
          { content := sf.content, mode := perm, uid := o.procUid,
            gid := o.procGid, atime := o.now, mtime := o.now,
            extents := o.cloneExtents }, true)

/-- restoreMetadata (platform_linux.go): chown (best-effort), chmod,
chtimes from the captured stat; failure reported but dedupFile ignores it. -/
def restoreMetadata (o : Oracle) (fs : FS) (p : String) (orig : MFile) :
    FS × Bool :=
  if o.restoreFails then (fs, false)
  else
    match fsLookup fs p with
    | none => (fs, false)
    | some f =>
      (fsInsert fs p
        { f with mode := orig.mode, uid := orig.uid, gid := orig.gid,
                 atime := orig.atime, mtime := orig.mtime }, true)

/-- dedupFile's rollback closure (part_000): os.Remove(dst), then
os.Rename(tmpPath, dst), both errors ignored. -/
def dedupRollback (fs : FS) (dst : String) : FS :=
  match fsLookup (fsErase fs dst) (dst ++ ".dedup-tmp") with
  | some f =>
    fsInsert (fsErase (fsErase fs dst) (dst ++ ".dedup-tmp")) dst f
  | none => fsErase fs dst

/-- dedupFile (part_000): capture dst's stat, rename dst to the tmp backup,
reflink src to dst with the captured mode, verify extent equivalence of src
and the new dst, restore metadata (failure only logged), remove the backup.
Every failure before the commit rolls back.  Returns the filesystem after
the call and the error (none = success). -/
def dedupFile (o : Oracle) (fs : FS) (src dst : String) : FS × Option String :=
  match fsLookup fs dst with
  | none => (fs, some "stat dst")
  | some dstInfo =>
    if o.renameFails then (fs, some "rename to tmp")
    else
      match reflinkCopy o (fsInsert (fsErase fs dst) (dst ++ ".dedup-tmp") dstInfo)
          src dst dstInfo.mode with
      | (fs2, false) => (dedupRollback fs2 dst, some "reflink copy")
      | (fs2, true) =>
        if o.srcExtentsFail then (dedupRollback fs2 dst, some "verify src extents")
        else
          match fsLookup fs2 src with
          | none => (dedupRollback fs2 dst, some "verify src extents")
          | some sf =>
            if o.dstExtentsFail then
              (dedupRollback fs2 dst, some "verify dst extents")
            else
              match fsLookup fs2 dst with
              | none => (dedupRollback fs2 dst, some "verify dst extents")
              | some df =>
                if SameExtents sf.extents df.extents then
                  (fsErase (restoreMetadata o fs2 dst dstInfo).1
                    (dst ++ ".dedup-tmp"), none)
                else
                  (dedupRollback fs2 dst,
                   some "extents mismatch after reflink")

theorem dedupRollback_restores (fs fs2 : FS) (dst : String) (f : MFile)
    (hdst : fsLookup fs dst = some f)
    (htmp : fsLookup fs2 (dst ++ ".dedup-tmp") = some f)
    (hrest : ∀ p, p ≠ dst → p ≠ dst ++ ".dedup-tmp" →
      fsLookup fs2 p = fsLookup fs p) :
    fsLookup (dedupRollback fs2 dst) dst = some f ∧
    ∀ p, p ≠ dst ++ ".dedup-tmp" →
      fsLookup (dedupRollback fs2 dst) p = fsLookup fs p := by
  have h1 : fsLookup (fsErase fs2 dst) (dst ++ ".dedup-tmp") = some f := by
    rw [fsLookup_erase, if_neg (tmp_path_ne dst), htmp]
  unfold dedupRollback
  simp only [h1]
  constructor
  · rw [fsLookup_insert, if_pos rfl]
  · intro p hp2
    by_cases hp1 : p = dst
    · rw [fsLookup_insert, if_pos hp1, hp1, hdst]
    · rw [fsLookup_insert, if_neg hp1, fsLookup_erase, if_neg hp2,
        fsLookup_erase, if_neg hp1, hrest p hp1 hp2]

theorem reflinkCopy_shape (o : Oracle) (fs1 : FS) (src dst : String) (perm : Nat) :
    (reflinkCopy o fs1 src dst perm).1 = fs1 ∨
    ∃ x, (reflinkCopy o fs1 src dst perm).1 = fsInsert fs1 dst x := by
  unfold reflinkCopy
  by_cases ho : o.openSrcFails
  · rw [if_pos ho]
    exact Or.inl rfl
  · rw [if_neg ho]
    rcases hsl : fsLookup fs1 src with _ | sf
    · exact Or.inl rfl
    · dsimp only
      by_cases hc : o.createFails
      · rw [if_pos hc]
        exact Or.inl rfl
      · rw [if_neg hc]
        by_cases hf : o.ficloneFails
        · rw [if_pos hf]
          exact Or.inr ⟨_, rfl⟩
        · rw [if_neg hf]
          exact Or.inr ⟨_, rfl⟩

theorem dedupFile_cases (o : Oracle) (fs : FS) (src dst : String) (f : MFile)
    (hdst : fsLookup fs dst = some f) :
    (dedupFile o fs src dst).2 = none ∨
    (fsLookup (dedupFile o fs src dst).1 dst = some f ∧
     ∀ p, p ≠ dst ++ ".dedup-tmp" →
       fsLookup (dedupFile o fs src dst).1 p = fsLookup fs p) := by
  unfold dedupFile
  simp only [hdst]
  set fs1 : FS := fsInsert (fsErase fs dst) (dst ++ ".dedup-tmp") f with hfs1
  have htmp1 : fsLookup fs1 (dst ++ ".dedup-tmp") = some f := by
    rw [hfs1, fsLookup_insert, if_pos rfl]
  have hrest1 : ∀ p, p ≠ dst → p ≠ dst ++ ".dedup-tmp" →
      fsLookup fs1 p = fsLookup fs p := by
    intro p h1 h2
    rw [hfs1, fsLookup_insert, if_neg h2, fsLookup_erase, if_neg h1]
  have hP : ∀ fs2 : FS,
      (fs2 = fs1 ∨ ∃ x, fs2 = fsInsert fs1 dst x) →
      fsLookup (dedupRollback fs2 dst) dst = some f ∧
      ∀ p, p ≠ dst ++ ".dedup-tmp" →
        fsLookup (dedupRollback fs2 dst) p = fsLookup fs p := by
    intro fs2 hshape
    rcases hshape with rfl | ⟨x, rfl⟩
    · exact dedupRollback_restores fs fs1 dst f hdst htmp1 hrest1
    · refine dedupRollback_restores fs _ dst f hdst ?_ ?_
      · rw [fsLookup_insert, if_neg (tmp_path_ne dst), htmp1]
      · intro p h1 h2
        rw [fsLookup_insert, if_neg h1, hrest1 p h1 h2]
  by_cases hr : o.renameFails
  · rw [if_pos hr]
    exact Or.inr ⟨hdst, fun p _ => rfl⟩
  · rw [if_neg hr]
    rcases hrc : reflinkCopy o fs1 src dst f.mode with ⟨fs2, ok⟩
    have hshape : fs2 = fs1 ∨ ∃ x, fs2 = fsInsert fs1 dst x := by
      have hx := reflinkCopy_shape o fs1 src dst f.mode
      rw [hrc] at hx
      exact hx
    cases ok
    · exact Or.inr (hP fs2 hshape)
    · dsimp only
      by_cases hs : o.srcExtentsFail
      · rw [if_pos hs]
        exact Or.inr (hP fs2 hshape)
      · rw [if_neg hs]
        rcases hsl : fsLookup fs2 src with _ | sf
        · exact Or.inr (hP fs2 hshape)
        · dsimp only
          by_cases hdf : o.dstExtentsFail
          · rw [if_pos hdf]
            exact Or.inr (hP fs2 hshape)
          · rw [if_neg hdf]
            rcases hdl : fsLookup fs2 dst with _ | df
            · exact Or.inr (hP fs2 hshape)
            · dsimp only
              by_cases hsame : SameExtents sf.extents df.extents
              · rw [if_pos hsame]
                exact Or.inl rfl
              · rw [if_neg hsame]
                exact Or.inr (hP fs2 hshape)

/-- C1: after any failure of the atomic replace procedure — the initial
rename, any part of the reflink creation, either extent fetch or the
extent-equivalence verification — dst is present at its original path with
its original content, mode, owner, times and extent map, and every path
other than the tmp backup dst + ".dedup-tmp" is exactly as before the
call. -/
theorem dedupFile_rollback (o : Oracle) (fs : FS) (src dst : String) (f : MFile)
    (hdst : fsLookup fs dst = some f)
    (hfail : (dedupFile o fs src dst).2 ≠ none) :
    fsLookup (dedupFile o fs src dst).1 dst = some f ∧
    ∀ p, p ≠ dst ++ ".dedup-tmp" →
      fsLookup (dedupFile o fs src dst).1 p = fsLookup fs p := by
  rcases dedupFile_cases o fs src dst f hdst with h | h
  · exact absurd h hfail
  · exact h

/-- The C1 witness oracle: the FICLONE ioctl fails after dst was displaced
and the truncated clone target was created. -/
def oracleW : Oracle :=
  { renameFails := false, openSrcFails := false, createFails := false,
    ficloneFails := true, srcExtentsFail := false, dstExtentsFail := false,
    restoreFails := false, cloneExtents := [], procUid := 0, procGid := 0,
    now := 99 }

/-- The reference file of the C1 witness. -/
def mfSrc : MFile :=
  { content := [1, 2], mode := 420, uid := 0, gid := 0, atime := 1,
    mtime := 2, extents := [{ Logical := 0, Physical := 7, Length := 2, Flags := 1 }] }

/-- The to-be-replaced file of the C1 witness. -/
def mfDst : MFile :=
  { content := [1, 2], mode := 384, uid := 5, gid := 6, atime := 3,
    mtime := 4, extents := [{ Logical := 0, Physical := 9, Length := 2, Flags := 1 }] }

/-- The starting filesystem of the C1 witness. -/
def fsW : FS := [("s", mfSrc), ("d", mfDst)]

theorem dedupFile_rollback_witness :
    fsLookup (dedupFile oracleW fsW "s" "d").1 "d" = some mfDst ∧
    ∀ p, p ≠ "d" ++ ".dedup-tmp" →
      fsLookup (dedupFile oracleW fsW "s" "d").1 p = fsLookup fsW p :=
  dedupFile_rollback oracleW fsW "s" "d" mfDst (by decide) (by decide)
